import Mathlib

/-!
Shallow embedding of the participant-parsing and pool-reconciliation core of
msdacsystems/participants-legacy (src/ext/parser.py and src/participants.py).

Strings are modelled as `List Char`; Python string/character operations are
modelled for the ASCII range (the source's regular expression `[A-Za-z]` and
all exclusion and keyword lists are ASCII, and Python agrees with ASCII
casing there).
-/

/-- Characters treated as whitespace by Python `str.strip` / `str.split`
(ASCII range: space, tab, newline, carriage return, vertical tab, form feed). -/
def pyIsSpaceB (c : Char) : Bool :=
  c == ' ' || c == '\t' || c == '\n' || c == '\r' || c == '\x0B' || c == '\x0C'

/-- Models the regular-expression class `[A-Za-z]` used in `re.sub(r"[^A-Za-z]+", ...)`. -/
def pyIsAlphaB (c : Char) : Bool :=
  (65 ≤ c.toNat && c.toNat ≤ 90) || (97 ≤ c.toNat && c.toNat ≤ 122)

/-- ASCII model of Python per-character upper-casing (`str.upper`). -/
def pyUpperChar (c : Char) : Char :=
  if 97 ≤ c.toNat ∧ c.toNat ≤ 122 then Char.ofNat (c.toNat - 32) else c

/-- ASCII model of Python per-character lower-casing (`str.lower`). -/
def pyLowerChar (c : Char) : Char :=
  if 65 ≤ c.toNat ∧ c.toNat ≤ 90 then Char.ofNat (c.toNat + 32) else c

/-- Models Python `str.lower` on a whole string. -/
def toLowerS (s : List Char) : List Char := s.map pyLowerChar

/-- Models Python `str.strip()` (whitespace removed from both ends). -/
def pyStrip (s : List Char) : List Char :=
  ((s.dropWhile pyIsSpaceB).reverse.dropWhile pyIsSpaceB).reverse

/-- Worker for `pySplitWs`: accumulates the current word (reversed) while
scanning, emitting a word at each whitespace run boundary. -/
def splitWsAux : List Char → List Char → List (List Char)
  | [], acc => if acc.isEmpty then [] else [acc.reverse]
  | c :: cs, acc =>
    if pyIsSpaceB c then
      if acc.isEmpty then splitWsAux cs [] else acc.reverse :: splitWsAux cs []
    else splitWsAux cs (c :: acc)

/-- Models Python `str.split()` with no argument: split on whitespace runs,
producing no empty words. -/
def pySplitWs (s : List Char) : List (List Char) := splitWsAux s []

/-- Models Python `sep.join(words)` for a one-character separator. -/
def pyJoin (sep : Char) : List (List Char) → List Char
  | [] => []
  | [w] => w
  | w :: ws => w ++ sep :: pyJoin sep ws

/-- Models Python `str.split(d)` for a one-character separator `d`:
always returns at least one (possibly empty) field. -/
def splitOnChar (d : Char) : List Char → List (List Char)
  | [] => [[]]
  | c :: cs =>
    if c = d then [] :: splitOnChar d cs
    else
      match splitOnChar d cs with
      | [] => [[c]]
      | w :: ws => (c :: w) :: ws

/-- Models Python `str.splitlines()` for strings whose only line separator is
`'\n'` (the parser joins and splits exclusively with `'\n'`): like
`split('\n')` but the empty field after a trailing newline is not produced,
and the empty string yields no lines. -/
def pySplitlines (s : List Char) : List (List Char) :=
  if s = [] then []
  else if s.getLast? = some '\n' then (splitOnChar '\n' s).dropLast
  else splitOnChar '\n' s

/-! ## ParticipantParser (src/ext/parser.py) -/

/-- `self.DELIM` of `ParticipantParser`. -/
def DELIM : Char := ':'

/-- `self.FILTER_EXCLUSIONS` of `ParticipantParser`: word lists exempt from
casing, first component for ROLE formatting, second for NAME formatting. -/
def FILTER_EXCLUSIONS : List (List Char) × List (List Char) :=
  ([("AY").toList, ("to").toList], [("TBA").toList])

/-- Models the Python expression `f"{word[:1].upper()}{word[1:].lower()}"`. -/
def titleWord : List Char → List Char
  | [] => []
  | c :: cs => pyUpperChar c :: cs.map pyLowerChar

/-- Per-word step of `ParticipantParser.fmtStr`: ROLE words (`mode = false`)
are title-cased unless excluded; NAME words (`mode = true`) first lose their
`'@'` markers, then are title-cased unless excluded. -/
def fmtWord (mode : Bool) (word : List Char) : List Char :=
  if mode then
    let w := word.filter (fun c => c ≠ '@')
    if w ∈ FILTER_EXCLUSIONS.2 then w else titleWord w
  else
    if word ∈ FILTER_EXCLUSIONS.1 then word else titleWord word

/-- `ParticipantParser.fmtStr`: split on whitespace, format each word,
rejoin with single spaces. -/
def fmtStr (s : List Char) (mode : Bool) : List Char :=
  pyJoin ' ' ((pySplitWs s).map (fmtWord mode))

/-- One iteration of the loop body of `ParticipantParser.parse` for line
`line` at index `i`, where `LS` models `CLEAN.split(NL)` and `n` models
`len(CLEAN.splitlines())`.  Returns `none` when the line has no delimiter. -/
def parseEntry (LS : List (List Char)) (n i : Nat) (line : List Char) :
    Option (List Char × List Char) :=
  if DELIM ∈ line then
    let PART := splitOnChar DELIM line
    let ROLE := pyStrip (PART.getD 0 [])
    let NAME := pyStrip (PART.getD 1 [])
    if NAME.any pyIsAlphaB then
      some (fmtStr ROLE false, fmtStr NAME true)
    else
      let NLPT0 := if i + 1 = n then [] else
        (pyStrip (LS.getD (i + 1) [])).filter (fun c => c ≠ '@')
      let NLPT := if DELIM ∈ NLPT0 then [] else NLPT0
      some (fmtStr (line.filter (fun c => c ≠ DELIM)) false,
            fmtStr (pyStrip NLPT) true)
  else none

/-- `ParticipantParser.parse`: strip every line, rejoin with newlines, then
emit one (ROLE, NAME) pair per delimiter-bearing line, with the next-line
fallback when the name field holds no letter. -/
def parse (source : List Char) : List (List Char × List Char) :=
  let CLEAN := pyJoin '\n' ((pySplitlines source).map pyStrip)
  let LS := splitOnChar '\n' CLEAN
  let EN := pySplitlines CLEAN
  EN.enum.filterMap (fun p => parseEntry LS EN.length p.1 p.2)

/-! ## Members (src/participants.py): duplicate detection, rename, name format -/

/-- Fuelled longest-common-subsequence worker: the fuel dominates the sum of
the lengths, so it never runs out when called through `lcsLen`. -/
def lcsFuel : Nat → List Char → List Char → Nat
  | 0, _, _ => 0
  | _ + 1, [], _ => 0
  | _ + 1, _ :: _, [] => 0
  | f + 1, a :: as, b :: bs =>
    if a = b then lcsFuel f as bs + 1
    else max (lcsFuel f (a :: as) bs) (lcsFuel f as (b :: bs))

/-- Length of a longest common subsequence; used to model the external
`Levenshtein.ratio` (indel semantics: `ratio = 2·LCS/(|a|+|b|)`). -/
def lcsLen (a b : List Char) : Nat := lcsFuel (a.length + b.length) a b

/-- Models `lev.ratio(a, b) > self.DUPLICATE_THRESHOLD` with
`DUPLICATE_THRESHOLD = 0.85`: the ratio is `2·LCS/(|a|+|b|)` (`1.0` when both
strings are empty), and `2·L/n > 17/20 ↔ 40·L > 17·n`. -/
def levRatioExceeds (a b : List Char) : Bool :=
  if a.length + b.length = 0 then true
  else decide (40 * lcsLen a b > 17 * (a.length + b.length))

/-- `Members.getSimilarNames(name, renaming)`.  The first component of a
successful result is the returned list, the second is `self.CACHED_MEMBERS`
after the call: the source binds `MEMBERS = self.CACHED_MEMBERS` (an alias,
not a copy), so `MEMBERS.remove(renaming)` mutates the cached pool in place;
`list.remove` raises `ValueError` (modelled by `Except.error`) when
`renaming` is absent. -/
def getSimilarNames (cached : List (List Char)) (name : List Char)
    (renamingArg : Option (List Char)) :
    Except Unit (List (List Char) × List (List Char)) :=
  match renamingArg with
  | none =>
    Except.ok (cached.filter (fun n => levRatioExceeds (toLowerS n) (toLowerS name)), cached)
  | some r =>
    if r ∈ cached then
      let MEMBERS := cached.erase r
      Except.ok (MEMBERS.filter (fun n => levRatioExceeds (toLowerS n) (toLowerS name)), MEMBERS)
    else Except.error ()

/-- `Members.hasDuplicateName(name, renaming)`:
`True if len(self.getSimilarNames(name, renaming)) else False`, with the
post-call cached pool carried alongside. -/
def hasDuplicateName (cached : List (List Char)) (name : List Char)
    (renamingArg : Option (List Char)) :
    Except Unit (Bool × List (List Char)) :=
  match getSimilarNames cached name renamingArg with
  | Except.error e => Except.error e
  | Except.ok (res, cache2) => Except.ok (!res.isEmpty, cache2)

/-- The full words that `Members.adjustNameFormat` refuses to abbreviate. -/
def FULL_TITLES : List (List Char) :=
  [("brother").toList, ("sister").toList, ("pastor").toList]

/-- The three-letter starts that trigger the period rule in
`Members.adjustNameFormat`. -/
def BRIEF_TITLES : List (List Char) :=
  [("bro").toList, ("sis").toList, ("ptr").toList]

/-- `Members.adjustNameFormat`: title-case every word, then append a period
to the first word when its lower-cased form starts with "bro"/"sis"/"ptr",
is not "brother"/"sister"/"pastor", and does not already end with a period.
An input with no words takes the `IndexError` handler path and is returned
as the (empty) title-cased join. -/
def adjustNameFormat (name : List Char) : List Char :=
  let NAME := pyJoin ' ' ((pySplitWs name).map titleWord)
  match pySplitWs NAME with
  | [] => NAME
  | t0 :: rest =>
    if (toLowerS t0).take 3 ∈ BRIEF_TITLES ∧ toLowerS t0 ∉ FULL_TITLES then
      if t0.getLast? ≠ some '.' then t0 ++ '.' :: ' ' :: pyJoin ' ' rest
      else NAME
    else NAME

/-- State touched by the rename dialog: the member list widget's items and
`Members.CACHED_MEMBERS`. -/
structure RenameState where
  items : List (List Char)
  cached : List (List Char)
deriving DecidableEq

/-- Models `UIB.LST_MEM_MEMBERS.selectedItems()[0].setText(t)`: the selected
item is the one being renamed, identified here by its current text. -/
def setSelectedText (items : List (List Char)) (oldName newText : List Char) :
    List (List Char) :=
  match items with
  | [] => []
  | x :: xs => if x = oldName then newText :: xs else x :: setSelectedText xs oldName newText

/-- `DLG_RENAME.accept` from `Members.editMember`.  `confirmSimilar` is the
user's answer to the similar-names dialog; the Bool in the result records
whether any dialog was shown.  `getCurrentMembers(True)` is the lower-cased
item list; after the branch chain the selected item is set to
`adjustNameFormat(NEW_NAME)` and the cache refreshed from the item list.
The case-insensitive-equal branch only calls `self.hide()` and has no
`return`, so it falls through to that `setText` and cache refresh too. -/
def DLG_RENAME_accept (oldName typed : List Char) (st : RenameState)
    (confirmSimilar : Bool) : Except Unit (RenameState × Bool) :=
  let NEW := pyStrip typed
  if NEW ≠ [] then
    if toLowerS NEW = toLowerS oldName then
      let items2 := setSelectedText st.items oldName (adjustNameFormat NEW)
      Except.ok ({ items := items2, cached := items2 }, false)
    else if toLowerS NEW ∈ st.items.map toLowerS then
      Except.ok (st, true)
    else
      match hasDuplicateName st.cached NEW (some oldName) with
      | Except.error e => Except.error e
      | Except.ok (dup, cache2) =>
        if dup && !confirmSimilar then Except.ok ({ items := st.items, cached := cache2 }, true)
        else
          let items2 := setSelectedText st.items oldName (adjustNameFormat NEW)
          Except.ok ({ items := items2, cached := items2 }, dup)
  else Except.ok (st, false)

/-! ## Fields (src/participants.py) -/

/-- `Fields.getFieldData(merge)`: the session role/name lists (combo-box
texts) come first; with `merge`, pool entries not already present (exact
string comparison) are appended in pool order.  The third component models
the returned index dictionary `{i: [role, name]}`, built before merging. -/
def getFieldData (ROLES NAMES RLS NMS : List (List Char)) (merge : Bool) :
    List (List Char) × List (List Char) × List (List Char × List Char) :=
  let DICT := ROLES.zip NAMES
  let ROLES2 := if merge then ROLES ++ RLS.filter (fun i => decide (i ∉ ROLES)) else ROLES
  let NAMES2 := if merge then NAMES ++ NMS.filter (fun i => decide (i ∉ NAMES)) else NAMES
  (ROLES2, NAMES2, DICT)

/-! ## Definitions taken from the specification's words (for comparison) -/

/-- Spec-side: the text of a line before its first `':'`. -/
def beforeColon (l : List Char) : List Char := l.takeWhile (fun c => c ≠ ':')

/-- Spec-side: the text of a line after its first `':'`. -/
def afterFirstColon (l : List Char) : List Char :=
  (l.dropWhile (fun c => c ≠ ':')).drop 1

/-- The text strictly between the first and second `':'` of a line (the
second field of a split on every colon). -/
def secondField (l : List Char) : List Char :=
  (afterFirstColon l).takeWhile (fun c => c ≠ ':')

/-- Spec-side merge contract: append, in pool order, every pool entry whose
value (case-sensitive exact string) is not already in the current list. -/
def mergeForSave (current pool : List (List Char)) : List (List Char) :=
  current ++ pool.filter (fun i => decide (i ∉ current))

/-- Spec-side reading of the `adjustNameFormat` period rule at token level:
title-case every token, then append a period to the first token exactly when
its lower-cased form starts with "bro"/"sis"/"ptr", is none of
"brother"/"sister"/"pastor", and the token does not already end with `'.'`. -/
def specAdjustedTokens (name : List Char) : List (List Char) :=
  match (pySplitWs name).map titleWord with
  | [] => []
  | t0 :: rest =>
    (if (toLowerS t0).take 3 ∈ BRIEF_TITLES ∧ toLowerS t0 ∉ FULL_TITLES ∧
        t0.getLast? ≠ some '.' then t0 ++ ['.'] else t0) :: rest

/-- A word as produced by `pySplitWs`: nonempty and whitespace-free. -/
def wordOk (w : List Char) : Prop := w ≠ [] ∧ ∀ c ∈ w, pyIsSpaceB c = false

/-- A word all of whose characters match `[A-Za-z]`. -/
@[reducible]
def wordAlpha (w : List Char) : Prop := ∀ c ∈ w, pyIsAlphaB c = true

/-! ## Character-level lemmas -/

theorem char_ne_of_toNat_ne {c d : Char} (h : c.toNat ≠ d.toNat) : c ≠ d :=
  fun he => h (he ▸ rfl)

theorem space_toNat_le {c : Char} (h : pyIsSpaceB c = true) : c.toNat ≤ 32 := by
  simp [pyIsSpaceB] at h
  rcases h with ((((h | h) | h) | h) | h) | h <;> subst h <;> decide

theorem alpha_toNat {c : Char} (h : pyIsAlphaB c = true) :
    (65 ≤ c.toNat ∧ c.toNat ≤ 90) ∨ (97 ≤ c.toNat ∧ c.toNat ≤ 122) := by
  simp [pyIsAlphaB] at h
  omega

theorem alpha_of_bounds {c : Char}
    (h : (65 ≤ c.toNat ∧ c.toNat ≤ 90) ∨ (97 ≤ c.toNat ∧ c.toNat ≤ 122)) :
    pyIsAlphaB c = true := by
  simp [pyIsAlphaB]
  omega

theorem pyUpperChar_bounds (c : Char) (h : 97 ≤ c.toNat ∧ c.toNat ≤ 122) :
    65 ≤ (pyUpperChar c).toNat ∧ (pyUpperChar c).toNat ≤ 90 := by
  rw [pyUpperChar, if_pos h]
  obtain ⟨h1, h2⟩ := h
  generalize c.toNat = n at h1 h2
  interval_cases n <;> decide

theorem pyUpperChar_fix (c : Char) (h : ¬ (97 ≤ c.toNat ∧ c.toNat ≤ 122)) :
    pyUpperChar c = c := by
  rw [pyUpperChar, if_neg h]

theorem pyLowerChar_bounds (c : Char) (h : 65 ≤ c.toNat ∧ c.toNat ≤ 90) :
    97 ≤ (pyLowerChar c).toNat ∧ (pyLowerChar c).toNat ≤ 122 := by
  rw [pyLowerChar, if_pos h]
  obtain ⟨h1, h2⟩ := h
  generalize c.toNat = n at h1 h2
  interval_cases n <;> decide

theorem pyLowerChar_fix (c : Char) (h : ¬ (65 ≤ c.toNat ∧ c.toNat ≤ 90)) :
    pyLowerChar c = c := by
  rw [pyLowerChar, if_neg h]

theorem pyUpperChar_idem (c : Char) : pyUpperChar (pyUpperChar c) = pyUpperChar c := by
  by_cases h : 97 ≤ c.toNat ∧ c.toNat ≤ 122
  · have hu := pyUpperChar_bounds c h
    exact pyUpperChar_fix _ (by omega)
  · rw [pyUpperChar_fix c h, pyUpperChar_fix c h]

theorem pyLowerChar_idem (c : Char) : pyLowerChar (pyLowerChar c) = pyLowerChar c := by
  by_cases h : 65 ≤ c.toNat ∧ c.toNat ≤ 90
  · have hu := pyLowerChar_bounds c h
    exact pyLowerChar_fix _ (by omega)
  · rw [pyLowerChar_fix c h, pyLowerChar_fix c h]

theorem pyUpperChar_ne_lower (c t : Char) (ht : 97 ≤ t.toNat ∧ t.toNat ≤ 122) :
    pyUpperChar c ≠ t := by
  by_cases h : 97 ≤ c.toNat ∧ c.toNat ≤ 122
  · have hu := pyUpperChar_bounds c h
    exact char_ne_of_toNat_ne (by omega)
  · rw [pyUpperChar_fix c h]
    exact char_ne_of_toNat_ne (by omega)

theorem pyLowerChar_ne_upper (c t : Char) (ht : 65 ≤ t.toNat ∧ t.toNat ≤ 90) :
    pyLowerChar c ≠ t := by
  by_cases h : 65 ≤ c.toNat ∧ c.toNat ≤ 90
  · have hu := pyLowerChar_bounds c h
    exact char_ne_of_toNat_ne (by omega)
  · rw [pyLowerChar_fix c h]
    exact char_ne_of_toNat_ne (by omega)

theorem pyUpperChar_ne (c t : Char) (ht : ¬ (65 ≤ t.toNat ∧ t.toNat ≤ 90))
    (hc : c ≠ t) : pyUpperChar c ≠ t := by
  by_cases h : 97 ≤ c.toNat ∧ c.toNat ≤ 122
  · have hu := pyUpperChar_bounds c h
    exact char_ne_of_toNat_ne (by omega)
  · rw [pyUpperChar_fix c h]; exact hc

theorem pyLowerChar_ne (c t : Char) (ht : ¬ (97 ≤ t.toNat ∧ t.toNat ≤ 122))
    (hc : c ≠ t) : pyLowerChar c ≠ t := by
  by_cases h : 65 ≤ c.toNat ∧ c.toNat ≤ 90
  · have hu := pyLowerChar_bounds c h
    exact char_ne_of_toNat_ne (by omega)
  · rw [pyLowerChar_fix c h]; exact hc

theorem pyUpperChar_nospace {c : Char} (h : pyIsSpaceB c = false) :
    pyIsSpaceB (pyUpperChar c) = false := by
  by_cases hb : 97 ≤ c.toNat ∧ c.toNat ≤ 122
  · have hu := pyUpperChar_bounds c hb
    cases hs : pyIsSpaceB (pyUpperChar c)
    · rfl
    · have := space_toNat_le hs
      omega
  · rw [pyUpperChar_fix c hb]; exact h

theorem pyLowerChar_nospace {c : Char} (h : pyIsSpaceB c = false) :
    pyIsSpaceB (pyLowerChar c) = false := by
  by_cases hb : 65 ≤ c.toNat ∧ c.toNat ≤ 90
  · have hu := pyLowerChar_bounds c hb
    cases hs : pyIsSpaceB (pyLowerChar c)
    · rfl
    · have := space_toNat_le hs
      omega
  · rw [pyLowerChar_fix c hb]; exact h

theorem pyUpperChar_alpha {c : Char} (h : pyIsAlphaB c = true) :
    pyIsAlphaB (pyUpperChar c) = true := by
  rcases alpha_toNat h with hb | hb
  · rw [pyUpperChar_fix c (by omega)]; exact h
  · exact alpha_of_bounds (Or.inl (pyUpperChar_bounds c hb))

theorem pyLowerChar_alpha {c : Char} (h : pyIsAlphaB c = true) :
    pyIsAlphaB (pyLowerChar c) = true := by
  rcases alpha_toNat h with hb | hb
  · exact alpha_of_bounds (Or.inr (pyLowerChar_bounds c hb))
  · rw [pyLowerChar_fix c (by omega)]; exact h

theorem alpha_nospace {c : Char} (h : pyIsAlphaB c = true) : pyIsSpaceB c = false := by
  have hb := alpha_toNat h
  cases hs : pyIsSpaceB c
  · rfl
  · have := space_toNat_le hs
    omega

theorem alpha_ne_at {c : Char} (h : pyIsAlphaB c = true) : c ≠ '@' := by
  have hb := alpha_toNat h
  exact char_ne_of_toNat_ne (by intro he; rw [show ('@').toNat = 64 from rfl] at he; omega)

/-! ## Word and split/join lemmas -/

theorem pyJoin_nil (sep : Char) : pyJoin sep [] = [] := rfl

theorem pyJoin_one (sep : Char) (w : List Char) : pyJoin sep [w] = w := rfl

theorem pyJoin_cons (sep : Char) (w : List Char) {ws : List (List Char)}
    (h : ws ≠ []) : pyJoin sep (w :: ws) = w ++ sep :: pyJoin sep ws := by
  cases ws with
  | nil => exact absurd rfl h
  | cons w2 ws2 => rfl

theorem splitWsAux_append (w : List Char) (hw : ∀ c ∈ w, pyIsSpaceB c = false) :
    ∀ (cs acc : List Char), splitWsAux (w ++ cs) acc = splitWsAux cs (w.reverse ++ acc) := by
  induction w with
  | nil => intro cs acc; simp
  | cons c w' ih =>
    intro cs acc
    have hc : pyIsSpaceB c = false := hw c (List.mem_cons_self c w')
    have hw' : ∀ x ∈ w', pyIsSpaceB x = false := fun x hx => hw x (List.mem_cons_of_mem c hx)
    simp only [List.cons_append, splitWsAux, hc, Bool.false_eq_true, if_false]
    rw [show w'.append cs = w' ++ cs from rfl, ih hw' cs (c :: acc)]
    simp

theorem splitWsAux_space (cs acc : List Char) :
    splitWsAux (' ' :: cs) acc =
      if acc.isEmpty then splitWsAux cs [] else acc.reverse :: splitWsAux cs [] := by
  have hsp : pyIsSpaceB ' ' = true := by decide
  simp [splitWsAux, hsp]

theorem pySplitWs_one {w : List Char} (hw : wordOk w) : pySplitWs w = [w] := by
  obtain ⟨hne, hns⟩ := hw
  have := splitWsAux_append w hns [] []
  rw [List.append_nil] at this
  rw [pySplitWs, this]
  simp only [splitWsAux, List.append_nil]
  rw [if_neg (by simpa using fun h => hne (List.reverse_eq_nil_iff.mp h))]
  simp

theorem pySplitWs_word_cons {w : List Char} (rest : List Char) (hw : wordOk w) :
    pySplitWs (w ++ ' ' :: rest) = w :: pySplitWs rest := by
  obtain ⟨hne, hns⟩ := hw
  rw [pySplitWs, splitWsAux_append w hns (' ' :: rest) [], List.append_nil,
    splitWsAux_space]
  rw [if_neg (by simpa using fun h => hne (List.reverse_eq_nil_iff.mp h))]
  simp [pySplitWs]

theorem pySplitWs_pyJoin {ts : List (List Char)} (h : ∀ w ∈ ts, wordOk w) :
    pySplitWs (pyJoin ' ' ts) = ts := by
  induction ts with
  | nil => rfl
  | cons w ws ih =>
    cases ws with
    | nil => exact pySplitWs_one (h w (List.mem_cons_self w []))
    | cons w2 ws2 =>
      rw [pyJoin_cons ' ' w (by simp)]
      rw [pySplitWs_word_cons _ (h w (List.mem_cons_self w _))]
      rw [ih (fun x hx => h x (List.mem_cons_of_mem w hx))]

theorem splitWsAux_wordOk (s : List Char) :
    ∀ acc, (∀ c ∈ acc, pyIsSpaceB c = false) → ∀ w ∈ splitWsAux s acc, wordOk w := by
  induction s with
  | nil =>
    intro acc hacc w hw
    simp only [splitWsAux] at hw
    by_cases he : acc.isEmpty
    · rw [if_pos he] at hw; exact absurd hw (List.not_mem_nil w)
    · rw [if_neg he] at hw
      rcases List.mem_singleton.mp hw with rfl
      refine ⟨fun h => he ?_, fun c hc => hacc c (List.mem_reverse.mp hc)⟩
      rw [List.reverse_eq_nil_iff.mp h]; rfl
  | cons c cs ih =>
    intro acc hacc w hw
    simp only [splitWsAux] at hw
    by_cases hc : pyIsSpaceB c = true
    · rw [if_pos hc] at hw
      by_cases he : acc.isEmpty
      · rw [if_pos he] at hw
        exact ih [] (by simp) w hw
      · rw [if_neg he] at hw
        rcases List.mem_cons.mp hw with rfl | hw2
        · refine ⟨fun h => he ?_, fun x hx => hacc x (List.mem_reverse.mp hx)⟩
          rw [List.reverse_eq_nil_iff.mp h]; rfl
        · exact ih [] (by simp) w hw2
    · rw [if_neg hc] at hw
      refine ih (c :: acc) ?_ w hw
      intro x hx
      rcases List.mem_cons.mp hx with rfl | hx2
      · exact Bool.not_eq_true _ ▸ (Bool.of_not_eq_true hc)
      · exact hacc x hx2

theorem pySplitWs_wordOk {s w : List Char} (hw : w ∈ pySplitWs s) : wordOk w :=
  splitWsAux_wordOk s [] (by simp) w hw

theorem splitWsAux_chars (s : List Char) :
    ∀ acc w, w ∈ splitWsAux s acc → ∀ c ∈ w, c ∈ s ∨ c ∈ acc := by
  induction s with
  | nil =>
    intro acc w hw c hc
    simp only [splitWsAux] at hw
    by_cases he : acc.isEmpty
    · rw [if_pos he] at hw; exact absurd hw (List.not_mem_nil w)
    · rw [if_neg he] at hw
      rcases List.mem_singleton.mp hw with rfl
      exact Or.inr (List.mem_reverse.mp hc)
  | cons a cs ih =>
    intro acc w hw c hc
    simp only [splitWsAux] at hw
    by_cases ha : pyIsSpaceB a = true
    · rw [if_pos ha] at hw
      by_cases he : acc.isEmpty
      · rw [if_pos he] at hw
        rcases ih [] w hw c hc with h | h
        · exact Or.inl (List.mem_cons_of_mem a h)
        · exact absurd h (List.not_mem_nil c)
      · rw [if_neg he] at hw
        rcases List.mem_cons.mp hw with rfl | hw2
        · exact Or.inr (List.mem_reverse.mp hc)
        · rcases ih [] w hw2 c hc with h | h
          · exact Or.inl (List.mem_cons_of_mem a h)
          · exact absurd h (List.not_mem_nil c)
    · rw [if_neg ha] at hw
      rcases ih (a :: acc) w hw c hc with h | h
      · exact Or.inl (List.mem_cons_of_mem a h)
      · rcases List.mem_cons.mp h with rfl | h2
        · exact Or.inl (List.mem_cons_self c cs)
        · exact Or.inr h2

theorem pySplitWs_chars {s w : List Char} (hw : w ∈ pySplitWs s) :
    ∀ c ∈ w, c ∈ s := by
  intro c hc
  rcases splitWsAux_chars s [] w hw c hc with h | h
  · exact h
  · exact absurd h (List.not_mem_nil c)

theorem mem_pyJoin {c sep : Char} {ts : List (List Char)} (h : c ∈ pyJoin sep ts) :
    c = sep ∨ ∃ w ∈ ts, c ∈ w := by
  induction ts with
  | nil => exact absurd h (List.not_mem_nil c)
  | cons w ws ih =>
    cases ws with
    | nil =>
      rw [pyJoin_one] at h
      exact Or.inr ⟨w, List.mem_cons_self w [], h⟩
    | cons w2 ws2 =>
      rw [pyJoin_cons sep w (by simp)] at h
      rcases List.mem_append.mp h with h1 | h1
      · exact Or.inr ⟨w, List.mem_cons_self w _, h1⟩
      · rcases List.mem_cons.mp h1 with rfl | h2
        · exact Or.inl rfl
        · rcases ih h2 with h3 | ⟨w3, hw3, hc3⟩
          · exact Or.inl h3
          · exact Or.inr ⟨w3, List.mem_cons_of_mem w hw3, hc3⟩

/-! ## titleWord and fmtWord lemmas -/

theorem titleWord_idem (w : List Char) : titleWord (titleWord w) = titleWord w := by
  cases w with
  | nil => rfl
  | cons c cs =>
    simp only [titleWord, pyUpperChar_idem, List.map_map, List.cons.injEq, true_and]
    exact List.map_congr_left (fun a _ => pyLowerChar_idem a)

theorem titleWord_wordOk {w : List Char} (hw : wordOk w) : wordOk (titleWord w) := by
  obtain ⟨hne, hns⟩ := hw
  cases w with
  | nil => exact absurd rfl hne
  | cons c cs =>
    refine ⟨by simp [titleWord], ?_⟩
    intro x hx
    rcases List.mem_cons.mp hx with rfl | hx2
    · exact pyUpperChar_nospace (hns c (List.mem_cons_self c cs))
    · rcases List.mem_map.mp hx2 with ⟨z, hz, rfl⟩
      exact pyLowerChar_nospace (hns z (List.mem_cons_of_mem c hz))

theorem titleWord_wordAlpha {w : List Char} (hw : wordAlpha w) : wordAlpha (titleWord w) := by
  cases w with
  | nil => exact hw
  | cons c cs =>
    intro x hx
    rcases List.mem_cons.mp hx with rfl | hx2
    · exact pyUpperChar_alpha (hw c (List.mem_cons_self c cs))
    · rcases List.mem_map.mp hx2 with ⟨z, hz, rfl⟩
      exact pyLowerChar_alpha (hw z (List.mem_cons_of_mem c hz))

theorem titleWord_no_colon {w : List Char} (hw : ':' ∉ w) : ':' ∉ titleWord w := by
  cases w with
  | nil => exact hw
  | cons c cs =>
    intro hx
    rcases List.mem_cons.mp hx with he | hx2
    · exact pyUpperChar_ne c ':' (by decide) (fun h => hw (h ▸ List.mem_cons_self c cs))
        he.symm
    · rcases List.mem_map.mp hx2 with ⟨z, hz, he⟩
      exact pyLowerChar_ne z ':' (by decide)
        (fun h => hw (h ▸ List.mem_cons_of_mem c hz)) he

theorem titleWord_ne_AY (w : List Char) : titleWord w ≠ ("AY").toList := by
  have hAY : ("AY").toList = ['A', 'Y'] := rfl
  rw [hAY]
  cases w with
  | nil => simp [titleWord]
  | cons c cs =>
    simp only [titleWord]
    intro he
    injection he with h1 h2
    cases cs with
    | nil => exact absurd h2 (by simp)
    | cons z zs =>
      simp only [List.map_cons] at h2
      injection h2 with h21 h22
      exact pyLowerChar_ne_upper z 'Y' (by decide) h21

theorem titleWord_ne_to (w : List Char) : titleWord w ≠ ("to").toList := by
  have hto : ("to").toList = ['t', 'o'] := rfl
  rw [hto]
  cases w with
  | nil => simp [titleWord]
  | cons c cs =>
    simp only [titleWord]
    intro he
    injection he with h1 h2
    exact pyUpperChar_ne_lower c 't' (by decide) h1

theorem titleWord_ne_TBA (w : List Char) : titleWord w ≠ ("TBA").toList := by
  have hT : ("TBA").toList = ['T', 'B', 'A'] := rfl
  rw [hT]
  cases w with
  | nil => simp [titleWord]
  | cons c cs =>
    simp only [titleWord]
    intro he
    injection he with h1 h2
    cases cs with
    | nil => exact absurd h2 (by simp)
    | cons z zs =>
      simp only [List.map_cons] at h2
      injection h2 with h21 h22
      exact pyLowerChar_ne_upper z 'B' (by decide) h21

theorem fmtWord_false (word : List Char) :
    fmtWord false word = if word ∈ FILTER_EXCLUSIONS.1 then word else titleWord word := rfl

theorem fmtWord_true (word : List Char) :
    fmtWord true word =
      if word.filter (fun c => c ≠ '@') ∈ FILTER_EXCLUSIONS.2 then
        word.filter (fun c => c ≠ '@')
      else titleWord (word.filter (fun c => c ≠ '@')) := rfl

theorem wordAlpha_filter_at {w : List Char} (hw : wordAlpha w) :
    w.filter (fun c => c ≠ '@') = w := by
  apply List.filter_eq_self.mpr
  intro c hc
  simpa using alpha_ne_at (hw c hc)

theorem titleWord_notin_role_excl (w : List Char) :
    titleWord w ∉ FILTER_EXCLUSIONS.1 := by
  intro hmem
  have h : FILTER_EXCLUSIONS.1 = [("AY").toList, ("to").toList] := rfl
  rw [h] at hmem
  rcases List.mem_cons.mp hmem with he | hmem2
  · exact titleWord_ne_AY w he
  · exact titleWord_ne_to w (List.mem_singleton.mp hmem2)

theorem titleWord_notin_name_excl (w : List Char) :
    titleWord w ∉ FILTER_EXCLUSIONS.2 := by
  intro hmem
  have h : FILTER_EXCLUSIONS.2 = [("TBA").toList] := rfl
  rw [h] at hmem
  exact titleWord_ne_TBA w (List.mem_singleton.mp hmem)

theorem fmtWord_wordAlpha {w : List Char} (mode : Bool) (hw : wordAlpha w) :
    wordAlpha (fmtWord mode w) := by
  cases mode
  · rw [fmtWord_false]
    split
    · exact hw
    · exact titleWord_wordAlpha hw
  · rw [fmtWord_true, wordAlpha_filter_at hw]
    split
    · exact hw
    · exact titleWord_wordAlpha hw

theorem fmtWord_wordOk {w : List Char} (mode : Bool) (hok : wordOk w) (hw : wordAlpha w) :
    wordOk (fmtWord mode w) := by
  cases mode
  · rw [fmtWord_false]
    split
    · exact hok
    · exact titleWord_wordOk hok
  · rw [fmtWord_true, wordAlpha_filter_at hw]
    split
    · exact hok
    · exact titleWord_wordOk hok

theorem fmtWord_idem {w : List Char} (mode : Bool) (hw : wordAlpha w) :
    fmtWord mode (fmtWord mode w) = fmtWord mode w := by
  cases mode
  · simp only [fmtWord_false]
    by_cases hP : w ∈ FILTER_EXCLUSIONS.1
    · rw [if_pos hP, if_pos hP]
    · rw [if_neg hP, if_neg (titleWord_notin_role_excl w), titleWord_idem]
  · simp only [fmtWord_true, wordAlpha_filter_at hw]
    by_cases hP : w ∈ FILTER_EXCLUSIONS.2
    · rw [if_pos hP]
      rw [wordAlpha_filter_at hw, if_pos hP]
    · rw [if_neg hP]
      rw [wordAlpha_filter_at (titleWord_wordAlpha hw),
        if_neg (titleWord_notin_name_excl w), titleWord_idem]

/-! ## fmtStr lemmas -/

theorem fmtStr_split {s : List Char} (mode : Bool)
    (h : ∀ w ∈ pySplitWs s, wordAlpha w) :
    pySplitWs (fmtStr s mode) = (pySplitWs s).map (fmtWord mode) := by
  rw [fmtStr]
  apply pySplitWs_pyJoin
  intro w hw
  rcases List.mem_map.mp hw with ⟨w0, hw0, rfl⟩
  exact fmtWord_wordOk mode (pySplitWs_wordOk hw0) (h w0 hw0)

theorem fmtWord_no_colon {w : List Char} (mode : Bool) (hw : ':' ∉ w) :
    ':' ∉ fmtWord mode w := by
  have hf : ':' ∉ w.filter (fun c => c ≠ '@') :=
    fun hx => hw (List.mem_of_mem_filter hx)
  cases mode
  · rw [fmtWord_false]
    split
    · exact hw
    · exact titleWord_no_colon hw
  · rw [fmtWord_true]
    split
    · exact hf
    · exact titleWord_no_colon hf

theorem fmtStr_no_colon {s : List Char} (mode : Bool) (hs : ':' ∉ s) :
    ':' ∉ fmtStr s mode := by
  intro hx
  rcases mem_pyJoin hx with he | ⟨w, hw, hcw⟩
  · exact absurd he (by decide)
  · rcases List.mem_map.mp hw with ⟨w0, hw0, rfl⟩
    have hw0c : ':' ∉ w0 := fun hc => hs (pySplitWs_chars hw0 ':' hc)
    exact fmtWord_no_colon mode hw0c hcw

theorem mem_pyStrip {c : Char} {s : List Char} (h : c ∈ pyStrip s) : c ∈ s := by
  rw [pyStrip] at h
  rw [List.mem_reverse] at h
  have h2 := (List.dropWhile_sublist _).subset h
  rw [List.mem_reverse] at h2
  exact (List.dropWhile_sublist _).subset h2

/-! ## splitOnChar lemmas -/

theorem splitOnChar_ne_nil (d : Char) (l : List Char) : splitOnChar d l ≠ [] := by
  cases l with
  | nil => simp [splitOnChar]
  | cons c cs =>
    rw [splitOnChar]
    split
    · simp
    · split
      · simp
      · simp

theorem splitOnChar_mem_free (d : Char) (l : List Char) :
    ∀ w ∈ splitOnChar d l, d ∉ w := by
  induction l with
  | nil =>
    intro w hw
    rcases List.mem_singleton.mp hw with rfl
    exact List.not_mem_nil d
  | cons c cs ih =>
    intro w hw
    rw [splitOnChar] at hw
    by_cases hc : c = d
    · rw [if_pos hc] at hw
      rcases List.mem_cons.mp hw with rfl | hw2
      · exact List.not_mem_nil d
      · exact ih w hw2
    · rw [if_neg hc] at hw
      rcases hsp : splitOnChar d cs with _ | ⟨w1, ws1⟩
      · exact absurd hsp (splitOnChar_ne_nil d cs)
      · rw [hsp] at hw
        rcases List.mem_cons.mp hw with rfl | hw2
        · intro hmem
          rcases List.mem_cons.mp hmem with he | hmem2
          · exact hc he.symm
          · exact ih w1 (hsp ▸ List.mem_cons_self w1 ws1) hmem2
        · exact ih w (hsp ▸ List.mem_cons_of_mem w1 hw2)

theorem splitOnChar_getD_free (d : Char) (l : List Char) (i : Nat) :
    d ∉ (splitOnChar d l).getD i [] := by
  by_cases h : i < (splitOnChar d l).length
  · rw [List.getD_eq_getElem _ _ h]
    exact splitOnChar_mem_free d l _ (List.getElem_mem h)
  · rw [List.getD_eq_default _ _ (Nat.le_of_not_lt h)]
    exact List.not_mem_nil d

theorem splitOnChar_no_delim {d : Char} {l : List Char} (h : d ∉ l) :
    splitOnChar d l = [l] := by
  induction l with
  | nil => rfl
  | cons c cs ih =>
    have hc : ¬ c = d := fun he => h (he ▸ List.mem_cons_self c cs)
    have hcs : d ∉ cs := fun hx => h (List.mem_cons_of_mem c hx)
    rw [splitOnChar, if_neg hc, ih hcs]

theorem splitOnChar_getD0 (d : Char) (l : List Char) :
    (splitOnChar d l).getD 0 [] = l.takeWhile (fun c => c ≠ d) := by
  induction l with
  | nil => rfl
  | cons c cs ih =>
    rw [splitOnChar]
    by_cases hc : c = d
    · rw [if_pos hc]
      subst hc
      rw [List.takeWhile_cons]
      simp
    · rw [if_neg hc]
      rcases hsp : splitOnChar d cs with _ | ⟨w1, ws1⟩
      · exact absurd hsp (splitOnChar_ne_nil d cs)
      · rw [hsp] at ih
        have ih2 : w1 = cs.takeWhile (fun c => c ≠ d) := by simpa using ih
        show c :: w1 = (c :: cs).takeWhile (fun x => x ≠ d)
        rw [List.takeWhile_cons]
        simp [hc, ih2]

theorem splitOnChar_getD1 {d : Char} {l : List Char} (h : d ∈ l) :
    (splitOnChar d l).getD 1 [] =
      ((l.dropWhile (fun c => c ≠ d)).drop 1).takeWhile (fun c => c ≠ d) := by
  induction l with
  | nil => exact absurd h (List.not_mem_nil d)
  | cons c cs ih =>
    rw [splitOnChar]
    by_cases hc : c = d
    · rw [if_pos hc]
      subst hc
      rw [List.dropWhile_cons]
      have hred : (decide ¬(c = c)) = false := by simp
      simp only [hred, Bool.false_eq_true, if_false, List.drop_succ_cons, List.drop_zero]
      have h0 := splitOnChar_getD0 c cs
      simpa using h0
    · have hcs : d ∈ cs := by
        rcases List.mem_cons.mp h with he | h2
        · exact absurd he.symm hc
        · exact h2
      rw [if_neg hc]
      rcases hsp : splitOnChar d cs with _ | ⟨w1, ws1⟩
      · exact absurd hsp (splitOnChar_ne_nil d cs)
      · rw [hsp] at ih
        rw [List.dropWhile_cons]
        have hct : (decide ¬(c = d)) = true := by simp [hc]
        simp only [hct, if_true]
        show ((w1 :: ws1).getD 1 []) =
          ((cs.dropWhile (fun x => x ≠ d)).drop 1).takeWhile (fun x => x ≠ d)
        simpa using ih hcs

/-! ## parse lemmas -/

theorem parseEntry_no_colon {LS : List (List Char)} {n i : Nat} {line : List Char}
    {p : List Char × List Char} (h : parseEntry LS n i line = some p) :
    ':' ∉ p.1 ∧ ':' ∉ p.2 := by
  rw [parseEntry] at h
  by_cases hd : DELIM ∈ line
  · rw [if_pos hd] at h
    simp only [] at h
    by_cases ha : ((pyStrip ((splitOnChar DELIM line).getD 1 [])).any pyIsAlphaB) = true
    · rw [if_pos ha] at h
      rcases Option.some.injEq _ _ ▸ h with rfl
      constructor
      · exact fmtStr_no_colon false
          (fun hx => splitOnChar_getD_free ':' line 0 (mem_pyStrip hx))
      · exact fmtStr_no_colon true
          (fun hx => splitOnChar_getD_free ':' line 1 (mem_pyStrip hx))
    · rw [if_neg ha] at h
      rcases Option.some.injEq _ _ ▸ h with rfl
      constructor
      · apply fmtStr_no_colon false
        intro hx
        have h3 := List.mem_filter.mp hx
        have h4 : ¬ (':' = DELIM) := by simpa using h3.2
        exact h4 rfl
      · apply fmtStr_no_colon true
        intro hx
        have hx2 := mem_pyStrip hx
        by_cases hnl : DELIM ∈ (if i + 1 = n then ([] : List Char) else
            (pyStrip (LS.getD (i + 1) [])).filter (fun c => c ≠ '@'))
        · rw [if_pos hnl] at hx2
          exact List.not_mem_nil ':' hx2
        · rw [if_neg hnl] at hx2
          exact hnl hx2
  · rw [if_neg hd] at h
    exact absurd h (by simp)

theorem pySplitlines_single {l : List Char} (h1 : l ≠ []) (h2 : '\n' ∉ l) :
    pySplitlines l = [l] := by
  rw [pySplitlines, if_neg h1]
  have hlast : l.getLast? ≠ some '\n' := by
    intro he
    obtain ⟨hne, heq⟩ := List.mem_getLast?_eq_getLast (x := '\n') he
    exact h2 (by rw [heq]; exact List.getLast_mem hne)
  rw [if_neg hlast]
  exact splitOnChar_no_delim h2

theorem parse_single {line : List Char} (h0 : pyStrip line = line) (h1 : line ≠ [])
    (h2 : '\n' ∉ line) :
    parse line = (parseEntry [line] 1 0 line).toList := by
  rw [parse]
  rw [pySplitlines_single h1 h2]
  simp only [List.map_cons, List.map_nil, h0]
  rw [pyJoin_one]
  rw [splitOnChar_no_delim h2, pySplitlines_single h1 h2]
  simp only [List.enum, List.length_cons, List.length_nil]
  cases hp : parseEntry [line] 1 0 line <;> simp [hp, List.filterMap]

theorem parseEntry_pos (LS : List (List Char)) (n i : Nat) {line : List Char}
    (hd : DELIM ∈ line)
    (ha : (pyStrip ((splitOnChar DELIM line).getD 1 [])).any pyIsAlphaB = true) :
    parseEntry LS n i line =
      some (fmtStr (pyStrip ((splitOnChar DELIM line).getD 0 [])) false,
            fmtStr (pyStrip ((splitOnChar DELIM line).getD 1 [])) true) := by
  rw [parseEntry, if_pos hd, if_pos ha]

theorem adjustNameFormat_def (name : List Char) :
    adjustNameFormat name =
      (match pySplitWs (pyJoin ' ' ((pySplitWs name).map titleWord)) with
      | [] => pyJoin ' ' ((pySplitWs name).map titleWord)
      | t0 :: rest =>
        if (toLowerS t0).take 3 ∈ BRIEF_TITLES ∧ toLowerS t0 ∉ FULL_TITLES then
          if t0.getLast? ≠ some '.' then t0 ++ '.' :: ' ' :: pyJoin ' ' rest
          else pyJoin ' ' ((pySplitWs name).map titleWord)
        else pyJoin ' ' ((pySplitWs name).map titleWord)) := rfl

theorem adjustNameFormat_tokens (name : List Char) :
    pySplitWs (adjustNameFormat name) = specAdjustedTokens name := by
  have hok : ∀ w ∈ (pySplitWs name).map titleWord, wordOk w := by
    intro w hw
    rcases List.mem_map.mp hw with ⟨w0, hw0, rfl⟩
    exact titleWord_wordOk (pySplitWs_wordOk hw0)
  have hts : pySplitWs (pyJoin ' ' ((pySplitWs name).map titleWord)) =
      (pySplitWs name).map titleWord := pySplitWs_pyJoin hok
  rw [adjustNameFormat_def, specAdjustedTokens, hts]
  rcases hws : (pySplitWs name).map titleWord with _ | ⟨t0, rest⟩
  · rfl
  · dsimp only
    rw [hws] at hok
    have ht0 : wordOk t0 := hok t0 (List.mem_cons_self t0 rest)
    have hrest : ∀ w ∈ rest, wordOk w := fun w hw => hok w (List.mem_cons_of_mem t0 hw)
    have hjoin : pySplitWs (pyJoin ' ' (t0 :: rest)) = t0 :: rest := pySplitWs_pyJoin hok
    by_cases hAB : (toLowerS t0).take 3 ∈ BRIEF_TITLES ∧ toLowerS t0 ∉ FULL_TITLES
    · by_cases hC : t0.getLast? ≠ some '.'
      · rw [if_pos hAB, if_pos hC, if_pos ⟨hAB.1, hAB.2, hC⟩]
        have he : t0 ++ '.' :: ' ' :: pyJoin ' ' rest =
            (t0 ++ ['.']) ++ ' ' :: pyJoin ' ' rest := by simp
        have hokdot : wordOk (t0 ++ ['.']) := by
          refine ⟨by simp, ?_⟩
          intro c hc
          rcases List.mem_append.mp hc with hc1 | hc1
          · exact ht0.2 c hc1
          · rcases List.mem_singleton.mp hc1 with rfl
            decide
        rw [he, pySplitWs_word_cons _ hokdot, pySplitWs_pyJoin hrest]
      · rw [if_pos hAB, if_neg hC, if_neg (fun hcon => hC hcon.2.2), hjoin]
    · rw [if_neg hAB, if_neg (fun hcon => hAB ⟨hcon.1, hcon.2.1⟩), hjoin]

/-! ## Claim theorems -/

/-- C1, counterexample: on input "AY Leader: to John" the parser does not
return the name "to John" — the name token "to" is not protected, because
"to" sits in the ROLE exclusion list while the NAME exclusion list holds
only "TBA". -/
theorem parse_AY_to_counterexample :
    parse (("AY Leader: to John").toList) ≠
      [(("AY Leader").toList, ("to John").toList)] := by decide

/-- C1 (corrected): `parse("AY Leader: to John")` yields
`("AY Leader", "To John")`: the role token "AY" stays uncased via the ROLE
exclusion list, while the name token "to" is title-cased to "To" since the
NAME exclusion list contains only "TBA". -/
theorem parse_AY_to_amended :
    parse (("AY Leader: to John").toList) =
      [(("AY Leader").toList, ("To John").toList)] := by decide

/-- C2, counterexample: on the line "Role: a:b" the parser emits the name
"A" (the text between the first and second colon, formatted), not the
formatted trimmed remainder after the first colon, which would be "A:b";
text after the second colon is discarded. -/
theorem parse_trailing_colon_text_dropped :
    parse (("Role: a:b").toList) = [(("Role").toList, ("A").toList)] ∧
    fmtStr (pyStrip (afterFirstColon (("Role: a:b").toList))) true = ("A:b").toList ∧
    ("A").toList ≠ ("A:b").toList := by decide

/-- C2 (corrected): `parse` splits a delimiter line at every `':'` and keeps
fields 0 and 1: for a single stripped line whose second field holds a
letter, the emitted pair is the formatted text before the first colon and
the formatted trimmed text strictly between the first and second colon. -/
theorem parse_splits_at_every_colon {line : List Char} (h0 : pyStrip line = line)
    (h2 : '\n' ∉ line) (hd : ':' ∈ line)
    (ha : (pyStrip (secondField line)).any pyIsAlphaB = true) :
    parse line = [(fmtStr (pyStrip (beforeColon line)) false,
                   fmtStr (pyStrip (secondField line)) true)] := by
  have h1 : line ≠ [] := by
    intro he
    rw [he] at hd
    exact List.not_mem_nil ':' hd
  have hdD : DELIM ∈ line := hd
  have hg0 : (splitOnChar DELIM line).getD 0 [] = beforeColon line :=
    splitOnChar_getD0 ':' line
  have hg1 : (splitOnChar DELIM line).getD 1 [] = secondField line :=
    splitOnChar_getD1 hd
  rw [parse_single h0 h1 h2, parseEntry_pos [line] 1 0 hdD (by rw [hg1]; exact ha),
    hg0, hg1]
  rfl

/-- C2 witness: the corrected statement evaluated on the line "A: b:c". -/
theorem parse_splits_at_every_colon_at :
    pyStrip (("A: b:c").toList) = ("A: b:c").toList ∧
    '\n' ∉ ("A: b:c").toList ∧
    ':' ∈ ("A: b:c").toList ∧
    (pyStrip (secondField (("A: b:c").toList))).any pyIsAlphaB = true ∧
    parse (("A: b:c").toList) =
      [(fmtStr (pyStrip (beforeColon (("A: b:c").toList))) false,
        fmtStr (pyStrip (secondField (("A: b:c").toList))) true)] :=
  ⟨by decide, by decide, by decide, by decide,
   parse_splits_at_every_colon (by decide) (by decide) (by decide) (by decide)⟩

/-- C3 (code bug): `getSimilarNames` with an excluded entry removes that
entry from the cached pool in place (the source aliases `MEMBERS` to
`self.CACHED_MEMBERS` and calls `remove` on it): on pool ["Ann", "Bob"],
checking "Annie" while excluding "Bob" leaves the cached pool as ["Ann"],
which differs from the original pool. -/
theorem getSimilarNames_mutates_cached :
    getSimilarNames [("Ann").toList, ("Bob").toList] (("Annie").toList)
        (some (("Bob").toList)) =
      Except.ok ([], [("Ann").toList]) ∧
    [("Ann").toList] ≠ [("Ann").toList, ("Bob").toList] :=
  ⟨rfl, by decide⟩

/-- C4, counterexample: renaming the entry "john" to the case-insensitively
equal value "john" is not a no-op — the branch calls only `self.hide()` and
has no `return`, so it falls through to `setText(adjustNameFormat(NEW_NAME))`
and the cache refresh, rewriting the entry to "John"; no dialog is shown. -/
theorem rename_case_insensitive_not_noop :
    DLG_RENAME_accept (("john").toList) (("john").toList)
        ⟨[("john").toList], [("john").toList]⟩ true =
      Except.ok (⟨[("John").toList], [("John").toList]⟩, false) ∧
    ("John").toList ≠ ("john").toList :=
  ⟨rfl, by decide⟩

/-- C4 (corrected): a rename whose stripped new value is nonempty and
case-insensitively equals the old value skips the exact-duplicate and
similarity checks and shows no confirmation prompt, but it is not a no-op:
the selected entry's text is set to `adjustNameFormat` of the stripped new
value and the cached pool is refreshed from the item list, so the entry
keeps its prior text only when that text equals the formatted new value. -/
theorem rename_case_insensitive_skips_checks (oldName typed : List Char)
    (st : RenameState) (confirm : Bool) (hne : pyStrip typed ≠ [])
    (h : toLowerS (pyStrip typed) = toLowerS oldName) :
    DLG_RENAME_accept oldName typed st confirm =
      Except.ok
        (⟨setSelectedText st.items oldName (adjustNameFormat (pyStrip typed)),
          setSelectedText st.items oldName (adjustNameFormat (pyStrip typed))⟩,
         false) := by
  rw [DLG_RENAME_accept, if_pos hne, if_pos h]

/-- C4 witness: renaming "john" to " JOHN " shows no dialog, runs no
duplicate check, and rewrites the entry to the formatted "John". -/
theorem rename_case_insensitive_skips_checks_at :
    pyStrip ((" JOHN ").toList) ≠ [] ∧
    toLowerS (pyStrip ((" JOHN ").toList)) = toLowerS (("john").toList) ∧
    DLG_RENAME_accept (("john").toList) ((" JOHN ").toList)
        ⟨[("john").toList, ("Mary").toList], [("john").toList, ("Mary").toList]⟩ true =
      Except.ok
        (⟨setSelectedText [("john").toList, ("Mary").toList] (("john").toList)
            (adjustNameFormat (pyStrip ((" JOHN ").toList))),
          setSelectedText [("john").toList, ("Mary").toList] (("john").toList)
            (adjustNameFormat (pyStrip ((" JOHN ").toList)))⟩,
         false) :=
  ⟨by decide, by decide,
   rename_case_insensitive_skips_checks _ _ _ _ (by decide) (by decide)⟩

/-- C5, counterexample: on an empty pool, supplying an excluded entry makes
`getSimilarNames` raise (list.remove of an absent element is a ValueError),
so the detection functions do not "never throw" for every excluding
argument. -/
theorem getSimilarNames_excluded_on_empty_pool_raises :
    getSimilarNames [] (("x").toList) (some (("y").toList)) = Except.error () := rfl

/-- C5 (corrected): with no excluded entry, both detection functions on an
empty pool raise no exception and report no duplicates (false) and no
similar names (empty list); an excluded entry, which is necessarily absent
from an empty pool, instead raises ValueError. -/
theorem detection_on_empty_pool_without_exclusion :
    ∀ name : List Char, getSimilarNames [] name none = Except.ok ([], []) ∧
      hasDuplicateName [] name none = Except.ok (false, []) :=
  fun _ => ⟨rfl, rfl⟩

/-- C6 (confirmed): `getFieldData` with merge returns the session lists
followed by exactly the pool entries not already present under exact string
comparison, in pool order, with no further deduplication — shown both in
general against the spec-side `mergeForSave` and on the spec's example. -/
theorem getFieldData_merge_matches_spec :
    (∀ ROLES NAMES RLS NMS : List (List Char),
        getFieldData ROLES NAMES RLS NMS true =
          (mergeForSave ROLES RLS, mergeForSave NAMES NMS, ROLES.zip NAMES)) ∧
    getFieldData [("R1").toList, ("R2").toList] [("A").toList, ("B").toList]
        [("R1").toList] [("B").toList, ("C").toList] true =
      ([("R1").toList, ("R2").toList],
       [("A").toList, ("B").toList, ("C").toList],
       [(("R1").toList, ("A").toList), (("R2").toList, ("B").toList)]) :=
  ⟨fun _ _ _ _ => rfl, by decide⟩

/-- C7 (confirmed): a bare "Role:" line recovers its name from the next
stripped line, except when that line itself carries the delimiter or does
not exist, in which case the name is empty. -/
theorem parse_next_line_fallback :
    parse (("Opening Prayer:\nJohn Smith").toList) =
      [(("Opening Prayer").toList, ("John Smith").toList)] ∧
    parse (("Opening Prayer:\nClosing Prayer:").toList) =
      [(("Opening Prayer").toList, []), (("Closing Prayer").toList, [])] := by decide

/-- C8 (confirmed): `adjustNameFormat` title-cases every token and appends a
period to the first token exactly when its lower-cased form starts with
"bro"/"sis"/"ptr", is none of "brother"/"sister"/"pastor", and does not
already end with a period — shown on the spec's two examples and, at token
level, for every input. -/
theorem adjustNameFormat_matches_spec :
    adjustNameFormat (("bro john dela cruz").toList) = ("Bro. John Dela Cruz").toList ∧
    adjustNameFormat (("brother john").toList) = ("Brother John").toList ∧
    ∀ name : List Char, pySplitWs (adjustNameFormat name) = specAdjustedTokens name :=
  ⟨by decide, by decide, fun name => adjustNameFormat_tokens name⟩

/-- C9 (confirmed): `fmtStr` is idempotent on inputs all of whose
whitespace-split tokens are alphabetic, for both word classes. -/
theorem fmtStr_idempotent (s : List Char) (mode : Bool)
    (h : ∀ w ∈ pySplitWs s, wordAlpha w) :
    fmtStr (fmtStr s mode) mode = fmtStr s mode := by
  have hsplit := fmtStr_split mode h
  conv_lhs => rw [fmtStr]
  rw [hsplit, List.map_map]
  conv_rhs => rw [fmtStr]
  congr 1
  apply List.map_congr_left
  intro a ha
  show fmtWord mode (fmtWord mode a) = fmtWord mode a
  exact fmtWord_idem mode (h a ha)

/-- C9 witness: idempotence evaluated at "john smith" in NAME mode. -/
theorem fmtStr_idempotent_at :
    (∀ w ∈ pySplitWs (("john smith").toList), wordAlpha w) ∧
    fmtStr (fmtStr (("john smith").toList) true) true =
      fmtStr (("john smith").toList) true :=
  ⟨by decide, fmtStr_idempotent _ true (by decide)⟩

/-- C10 (confirmed): every entry produced by `parse` is delimiter-free —
neither the role nor the name of any returned pair contains ':'. -/
theorem parse_no_delimiter_in_entries (source : List Char)
    (p : List Char × List Char) (hp : p ∈ parse source) :
    ':' ∉ p.1 ∧ ':' ∉ p.2 := by
  rw [parse] at hp
  rcases List.mem_filterMap.mp hp with ⟨x, _, hfx⟩
  exact parseEntry_no_colon hfx

/-- C10 witness: the invariant evaluated on the entry parsed from "A: b:c". -/
theorem parse_no_delimiter_in_entries_at :
    ((("A").toList, ("B").toList) ∈ parse (("A: b:c").toList)) ∧
    (':' ∉ (("A").toList, ("B").toList).1 ∧ ':' ∉ (("A").toList, ("B").toList).2) :=
  ⟨by decide,
   parse_no_delimiter_in_entries (("A: b:c").toList) ((("A").toList, ("B").toList))
     (by decide)⟩
